import Mathlib

/-!
Verification of the py-translate streaming pipeline (`translate/coroutines.py`)
against its natural-language specification.

The four pipeline stages are shallowly embedded as pure Lean functions:

* `source`       — `source(target)`: per-line splitting loop over stdin;
* `spool`        — `spool(iterable, maxlen)`: the batching coroutine;
* `setTaskRun`   — `set_task(translator, translit)`: the scheduler loop with
                   its worker pool, modelled by an explicit completion
                   schedule `doneAt : Nat → Nat → Bool` (round, job index);
* `write_stream` — the sink.

Text is modelled as `List Char`.  Side effects (sending a fragment downstream,
printing to stdout) become explicit output lists; raised exceptions become a
`false` success flag, with the output produced before the raise preserved.
-/

namespace Translate

/-! ### Source: `source(target)`

Python:
```
for line in sys.stdin:
    while len(line) > 500:
        init, sep, line = line.partition(' ')
        assert(len(init) <= 500)
        target.send(''.join([init, sep]))
    target.send(line)
return target.close()
```
-/

/-- `line.partition(' ')`: split at the first space.  Returns
`(init, sep, rest)` with `init ++ sep ++ rest = line`; `sep` is `[' ']` when a
space occurs in `line` and `[]` otherwise (in which case `init = line`,
`rest = []`). -/
def partitionSpace : List Char → List Char × List Char × List Char
  | [] => ([], [], [])
  | c :: cs =>
    if c = ' ' then ([], [' '], cs)
    else
      let p := partitionSpace cs
      (c :: p.1, p.2.1, p.2.2)

/-- The `while len(line) > 500` splitting loop of `source`, for one input line.
Returns the fragments sent to the downstream target, in order, and a success
flag (`false` when `assert(len(init) <= 500)` fails, in which case nothing
further is forwarded for this line).  The loop consumes at least one character
of `line` per iteration, so `fuel = line.length` (see `sourceLine`) makes the
fuel-exhaustion branch unreachable (`sourceLineAux_fuel`). -/
def sourceLineAux : Nat → List Char → List (List Char) × Bool
  | 0, line => if line.length > 500 then ([], false) else ([line], true)
  | fuel + 1, line =>
    if line.length > 500 then
      let t := partitionSpace line
      if t.1.length ≤ 500 then
        let p := sourceLineAux fuel t.2.2
        ((t.1 ++ t.2.1) :: p.1, p.2)
      else ([], false)
    else ([line], true)

/-- Fragments forwarded by `source` for one input line, with success flag. -/
def sourceLine (line : List Char) : List (List Char) × Bool :=
  sourceLineAux line.length line

/-- `source`: process the input lines in order; an assertion failure aborts
the loop (fragments already sent remain sent). -/
def source : List (List Char) → List (List Char) × Bool
  | [] => ([], true)
  | line :: rest =>
    let p := sourceLine line
    if p.2 then
      let q := source rest
      (p.1 ++ q.1, q.2)
    else (p.1, false)

theorem partitionSpace_concat (l : List Char) :
    (partitionSpace l).1 ++ (partitionSpace l).2.1 ++ (partitionSpace l).2.2 = l := by
  induction l with
  | nil => rfl
  | cons c cs ih =>
    by_cases h : c = ' '
    · simp [partitionSpace, h]
    · simp only [partitionSpace, if_neg h, List.cons_append]
      exact congrArg (c :: ·) ih

theorem partitionSpace_sep_length (l : List Char) :
    (partitionSpace l).2.1.length ≤ 1 := by
  induction l with
  | nil => simp [partitionSpace]
  | cons c cs ih =>
    by_cases h : c = ' '
    · simp [partitionSpace, h]
    · simpa [partitionSpace, h] using ih

theorem partitionSpace_no_space (l : List Char) (h : ∀ c ∈ l, c ≠ ' ') :
    partitionSpace l = (l, [], []) := by
  induction l with
  | nil => rfl
  | cons c cs ih =>
    have hc : c ≠ ' ' := h c (List.mem_cons_self c cs)
    have ihc := ih (fun x hx => h x (List.mem_cons_of_mem c hx))
    simp [partitionSpace, hc, ihc]

theorem partitionSpace_before_space (l r : List Char) (h : ∀ c ∈ l, c ≠ ' ') :
    partitionSpace (l ++ ' ' :: r) = (l, [' '], r) := by
  induction l with
  | nil => simp [partitionSpace]
  | cons c cs ih =>
    have hc : c ≠ ' ' := h c (List.mem_cons_self c cs)
    have ihc := ih (fun x hx => h x (List.mem_cons_of_mem c hx))
    simp [partitionSpace, hc, ihc]

/-- Either a space was found (`sep = [' ']`) or the whole line was returned
as `init` with empty `sep` and `rest`. -/
theorem partitionSpace_cases (l : List Char) :
    (partitionSpace l).2.1 = [' '] ∨
      ((partitionSpace l).1 = l ∧ (partitionSpace l).2.1 = [] ∧
        (partitionSpace l).2.2 = []) := by
  induction l with
  | nil => simp [partitionSpace]
  | cons c cs ih =>
    by_cases h : c = ' '
    · simp [partitionSpace, h]
    · rcases ih with h1 | ⟨h1, h2, h3⟩
      · left; simpa [partitionSpace, h] using h1
      · right; simp [partitionSpace, h, h1, h2, h3]

/-- With enough fuel the result of `sourceLineAux` is fuel-independent: the
recursion strictly shrinks the line, so `line.length` is always enough. -/
theorem sourceLineAux_fuel (fuel fuel' : Nat) (line : List Char)
    (h : line.length ≤ fuel) (h' : line.length ≤ fuel') :
    sourceLineAux fuel line = sourceLineAux fuel' line := by
  induction fuel generalizing fuel' line with
  | zero =>
    have : ¬ line.length > 500 := by omega
    cases fuel' with
    | zero => rfl
    | succ n => simp [sourceLineAux, this]
  | succ n ih =>
    cases fuel' with
    | zero =>
      have : ¬ line.length > 500 := by omega
      simp [sourceLineAux, this]
    | succ m =>
      by_cases hl : line.length > 500
      · by_cases hi : (partitionSpace line).1.length ≤ 500
        · have hcat := partitionSpace_concat line
          have hlen := congrArg List.length hcat
          simp only [List.length_append] at hlen
          rcases partitionSpace_cases line with hsep | ⟨h1, _, _⟩
          · have hrest : (partitionSpace line).2.2.length + 1 ≤ line.length := by
              rw [hsep] at hlen; simp at hlen; omega
            have ihr := ih m (partitionSpace line).2.2 (by omega) (by omega)
            simp only [sourceLineAux, if_pos hl, if_pos hi, ihr]
          · rw [h1] at hi; omega
        · simp [sourceLineAux, hl, hi]
      · simp [sourceLineAux, hl]

/-! ### Batcher: `spool(iterable, maxlen=1200)`

Python:
```
words = int();  text = str()
try:
    while True:
        while words < maxlen:
            stream = yield
            text   = reduce(accumulator, stream, text)
            words  = reduce(accumulator, stream, words)
        iterable.send(text)
        words = int();  text = str()
except GeneratorExit:
    iterable.send(text)
    iterable.close()
```

`accumulator(init, update)` dispatches on the type of `init`
(`init + len(update)` for an integer, `init + update` for a string);
it is embedded as the two monomorphic functions `accumulatorInt` and
`accumulatorStr`.  `reduce(accumulator, stream, acc)` folds over the incoming
fragment `stream` character by character, so each `update` is a one-character
string.
-/

/-- `accumulator` on an integer accumulator: `init + len(update)`. -/
def accumulatorInt (init : Nat) (update : List Char) : Nat :=
  init + update.length

/-- `accumulator` on a string accumulator: `init + update`. -/
def accumulatorStr (init update : List Char) : List Char :=
  init ++ update

/-- The batcher's state at its `yield` point: the running count `words` and
accumulated batch text `text`. -/
structure SpoolState where
  words : Nat
  text : List Char
deriving DecidableEq

/-- One resumption of `spool`: absorb one fragment into the state (the two
`reduce(accumulator, stream, _)` calls), then re-check the inner
`while words < maxlen` guard; if the count has reached `maxlen`, flush the
accumulated text downstream and reset.  Returns the new state and the list of
batches flushed (`[]` or one batch). -/
def spoolStep (maxlen : Nat) (st : SpoolState) (stream : List Char) :
    SpoolState × List (List Char) :=
  let text := stream.foldl (fun acc c => accumulatorStr acc [c]) st.text
  let words := stream.foldl (fun acc c => accumulatorInt acc [c]) st.words
  if maxlen ≤ words then (⟨0, []⟩, [text]) else (⟨words, text⟩, [])

/-- Run `spool` over a list of incoming fragments; returns the final state and
all batches flushed, in order. -/
def spoolRun (maxlen : Nat) : SpoolState → List (List Char) → SpoolState × List (List Char)
  | st, [] => (st, [])
  | st, f :: fs =>
    let p := spoolStep maxlen st f
    let q := spoolRun maxlen p.1 fs
    (q.1, p.2 ++ q.2)

/-- The whole lifetime of `spool`: all fragments received, then
`GeneratorExit` (upstream closed), which sends the remaining partial batch —
empty or not — downstream exactly once.  Returns all batches sent downstream,
in order. -/
def spool (maxlen : Nat) (frags : List (List Char)) : List (List Char) :=
  let p := spoolRun maxlen ⟨0, []⟩ frags
  p.2 ++ [p.1.text]

theorem foldl_accumulatorStr (s t : List Char) :
    s.foldl (fun acc c => accumulatorStr acc [c]) t = t ++ s := by
  induction s generalizing t with
  | nil => simp
  | cons c cs ih =>
    show List.foldl (fun acc c => accumulatorStr acc [c]) (accumulatorStr t [c]) cs
        = t ++ c :: cs
    rw [ih]
    simp [accumulatorStr]

theorem foldl_accumulatorInt (s : List Char) (w : Nat) :
    s.foldl (fun acc c => accumulatorInt acc [c]) w = w + s.length := by
  induction s generalizing w with
  | nil => simp
  | cons c cs ih =>
    show List.foldl (fun acc c => accumulatorInt acc [c]) (accumulatorInt w [c]) cs
        = w + (c :: cs).length
    rw [ih]
    simp [accumulatorInt]
    omega

/-- Closed form of one batcher step: the running count grows by the incoming
fragment's character count, the text by the fragment itself; crossing the
threshold flushes the merged text and resets the state. -/
theorem spoolStep_eq (maxlen : Nat) (st : SpoolState) (f : List Char) :
    spoolStep maxlen st f =
      if maxlen ≤ st.words + f.length then (⟨0, []⟩, [st.text ++ f])
      else (⟨st.words + f.length, st.text ++ f⟩, []) := by
  simp [spoolStep, foldl_accumulatorStr, foldl_accumulatorInt]

/-- Invariant of the batcher: at every `yield` point the running count is
strictly below the threshold (for a positive threshold). -/
theorem spoolRun_words_lt (maxlen : Nat) (hm : 0 < maxlen) :
    ∀ (fs : List (List Char)) (st : SpoolState), st.words < maxlen →
      ((spoolRun maxlen st fs).1).words < maxlen := by
  intro fs
  induction fs with
  | nil => intro st h; exact h
  | cons f fs ih =>
    intro st h
    show ((spoolRun maxlen (spoolStep maxlen st f).1 fs).1).words < maxlen
    apply ih
    rw [spoolStep_eq]
    by_cases hc : maxlen ≤ st.words + f.length
    · simpa [hc] using hm
    · simpa [hc] using lt_of_not_le hc

/-! ### Sink: `write_stream(script, output='trans')`

Python:
```
printer   = partial(print, file=sys.stdout, end='')
sentences = script.get('sentences', None)
assert(output in sentences[0])
for line in sentences:
    printer(line[output])
printer('\n')
```

A result is a dict with a `sentences` list of per-segment dicts, each
possibly carrying a `trans` and a `translit` entry.  Output written to stdout
is returned as an explicit character list, together with a success flag; on a
raise (failed assertion, missing `sentences`, empty `sentences`, or a missing
key on a later segment) the output already printed is preserved and the flag
is `false`.
-/

/-- The two recognized output-field selectors (`'trans'` / `'translit'`). -/
inductive Field where
  | trans
  | translit
deriving DecidableEq

/-- One per-segment record of a translation result: its optional `trans` and
`translit` entries. -/
structure Segment where
  trans : Option (List Char)
  translit : Option (List Char)
deriving DecidableEq

/-- Dictionary lookup `line[output]` / membership test `output in line`. -/
def Segment.get : Segment → Field → Option (List Char)
  | s, .trans => s.trans
  | s, .translit => s.translit

/-- The translation operation's structured output: a dict whose `sentences`
entry (if present) is the list of segments. -/
structure TranslationResult where
  sentences : Option (List Segment)
deriving DecidableEq

/-- The `for line in sentences: printer(line[output])` loop: concatenates the
selected field of each segment; a segment missing the key raises (`false`),
keeping what was already printed. -/
def writeLines (output : Field) : List Segment → List Char × Bool
  | [] => ([], true)
  | s :: rest =>
    match s.get output with
    | none => ([], false)
    | some t =>
      let p := writeLines output rest
      (t ++ p.1, p.2)

/-- `write_stream`: checks `output in sentences[0]` once, before any output,
then writes every segment's selected field with no separator and one final
newline.  A missing or empty `sentences` list raises before any output. -/
def write_stream (output : Field) (script : TranslationResult) : List Char × Bool :=
  match script.sentences with
  | none => ([], false)
  | some [] => ([], false)
  | some (s0 :: rest) =>
    if (s0.get output).isSome then
      let p := writeLines output (s0 :: rest)
      (p.1 ++ (if p.2 then ['\n'] else []), p.2)
    else ([], false)

/-- The sink over a whole run: `write_stream` is applied to each delivered
result in order; a raise aborts the run, keeping the output already printed. -/
def sinkRun (output : Field) : List TranslationResult → List Char × Bool
  | [] => ([], true)
  | r :: rs =>
    let p := write_stream output r
    if p.2 then
      let q := sinkRun output rs
      (p.1 ++ q.1, q.2)
    else (p.1, false)

/-! ### Scheduler: `set_task(translator, translit=False)`

Python:
```
task = str();  queue = list()
first  = operator.itemgetter(0)
done   = operator.methodcaller('done')
result = operator.methodcaller('result')
stream = partial(write_stream, output=('translit' if translit else 'trans'))
workers = ThreadPoolExecutor(cpu_count() * 32)
try:
    while True:
        task = yield
        queue.append(workers.submit(translator, task))
        while queue and done(first(queue)):
            stream(result(queue.pop()))
except GeneratorExit:
    workers.shutdown(wait=True)
    list(map(stream, (map(result, queue))))
```

A job is a pair `(submission index, batch text)`; the worker pool's
nondeterministic completion order is modelled by an explicit schedule
`doneAt : Nat → Nat → Bool`, where `doneAt i j` says whether job `j`'s future
reports `done()` during the drain loop that follows the submission of job `i`
(a future's doneness is stable while the drain loop of one round inspects the
same head element, so one predicate per round is faithful).  Note the source
checks `done` of the **head** of the queue but `queue.pop()` removes the
**tail**; `result()` blocks, so every popped job is delivered. -/

/-- The inner drain loop `while queue and done(first(queue)):
stream(result(queue.pop()))`.  Returns the jobs delivered (in delivery order)
and the remaining queue.  One element is removed per iteration, so
`fuel = queue.length` (see `drainLoop`) is always sufficient. -/
def drainLoopAux (isDone : Nat → Bool) :
    Nat → List (Nat × List Char) → List (Nat × List Char) × List (Nat × List Char)
  | _, [] => ([], [])
  | 0, q => ([], q)
  | fuel + 1, j :: rest =>
    if isDone j.1 then
      let p := drainLoopAux isDone fuel ((j :: rest).dropLast)
      ((j :: rest).getLast (List.cons_ne_nil j rest) :: p.1, p.2)
    else ([], j :: rest)

/-- The drain loop with its fuel instantiated. -/
def drainLoop (isDone : Nat → Bool) (queue : List (Nat × List Char)) :
    List (Nat × List Char) × List (Nat × List Char) :=
  drainLoopAux isDone queue.length queue

/-- The main `while True` loop of `set_task`: submit each incoming batch as a
job (appended at the tail of the queue), then run the drain loop.  Returns the
queue left at `GeneratorExit` time and the jobs delivered during the loop. -/
def setTaskGo (doneAt : Nat → Nat → Bool) :
    Nat → List (Nat × List Char) → List (List Char) →
      List (Nat × List Char) × List (Nat × List Char)
  | _, queue, [] => (queue, [])
  | i, queue, t :: ts =>
    let p := drainLoop (doneAt i) (queue ++ [(i, t)])
    let q := setTaskGo doneAt (i + 1) p.2 ts
    (q.1, p.1 ++ q.2)

/-- The whole lifetime of `set_task`: all batches submitted, then
`GeneratorExit`, which shuts the pool down (waiting) and streams every job
still in the queue, in queue order.  Returns all jobs delivered to the sink,
in delivery order. -/
def setTaskRun (doneAt : Nat → Nat → Bool) (tasks : List (List Char)) :
    List (Nat × List Char) :=
  let p := setTaskGo doneAt 0 [] tasks
  p.2 ++ p.1

/-- The results handed to `write_stream`, in delivery order:
`stream(result(f))` applies the translator's result for the job's text. -/
def setTaskResults (doneAt : Nat → Nat → Bool)
    (translator : List Char → TranslationResult) (tasks : List (List Char)) :
    List TranslationResult :=
  (setTaskRun doneAt tasks).map (fun j => translator j.2)

/-- The drain loop delivers some of the queued jobs and keeps the rest: the
delivered jobs together with the remaining queue are a permutation of the
queue, for any fuel. -/
theorem drainLoopAux_perm (isDone : Nat → Bool) :
    ∀ (fuel : Nat) (q : List (Nat × List Char)),
      ((drainLoopAux isDone fuel q).1 ++ (drainLoopAux isDone fuel q).2).Perm q := by
  intro fuel
  induction fuel with
  | zero =>
    intro q
    cases q with
    | nil => simp [drainLoopAux]
    | cons j rest => simp [drainLoopAux]
  | succ n ih =>
    intro q
    cases q with
    | nil => simp [drainLoopAux]
    | cons j rest =>
      by_cases h : isDone j.1
      · have hstep : drainLoopAux isDone (n + 1) (j :: rest)
            = ((j :: rest).getLast (List.cons_ne_nil j rest) ::
                (drainLoopAux isDone n ((j :: rest).dropLast)).1,
               (drainLoopAux isDone n ((j :: rest).dropLast)).2) := by
          simp [drainLoopAux, h]
        rw [hstep, List.cons_append]
        have h1 : ((j :: rest).getLast (List.cons_ne_nil j rest) ::
            ((drainLoopAux isDone n ((j :: rest).dropLast)).1 ++
              (drainLoopAux isDone n ((j :: rest).dropLast)).2)).Perm
            ((j :: rest).getLast (List.cons_ne_nil j rest) :: (j :: rest).dropLast) :=
          (ih ((j :: rest).dropLast)).cons _
        have h4 : ∀ (l : List (Nat × List Char)) (hl : l ≠ []),
            (l.getLast hl :: l.dropLast).Perm l := by
          intro l hl
          conv_rhs => rw [← List.dropLast_append_getLast hl]
          exact (List.perm_append_singleton _ _).symm
        exact h1.trans (h4 (j :: rest) (List.cons_ne_nil j rest))
      · simp [drainLoopAux, h]

/-- Permutation invariant of the scheduler's main loop: the jobs delivered
during the loop together with the queue left at exit are a permutation of the
initial queue plus the jobs submitted (one per incoming batch, numbered from
`i`). -/
theorem setTaskGo_perm (doneAt : Nat → Nat → Bool) :
    ∀ (ts : List (List Char)) (i : Nat) (queue : List (Nat × List Char)),
      (((setTaskGo doneAt i queue ts).2) ++ (setTaskGo doneAt i queue ts).1).Perm
        (queue ++ List.enumFrom i ts) := by
  intro ts
  induction ts with
  | nil => intro i queue; simp [setTaskGo]
  | cons t ts ih =>
    intro i queue
    show ((drainLoop (doneAt i) (queue ++ [(i, t)])).1 ++
        (setTaskGo doneAt (i + 1) (drainLoop (doneAt i) (queue ++ [(i, t)])).2 ts).2 ++
        (setTaskGo doneAt (i + 1) (drainLoop (doneAt i) (queue ++ [(i, t)])).2 ts).1).Perm
      (queue ++ List.enumFrom i (t :: ts))
    rw [List.append_assoc]
    have hdr := drainLoopAux_perm (doneAt i) (queue ++ [(i, t)]).length (queue ++ [(i, t)])
    have hih := ih (i + 1) (drainLoop (doneAt i) (queue ++ [(i, t)])).2
    refine (hih.append_left _).trans ?_
    rw [← List.append_assoc]
    refine (hdr.append_right _).trans ?_
    rw [List.append_assoc]
    simp

/-- When every segment carries the selected field, the write loop succeeds and
prints the fields concatenated with no separator. -/
theorem writeLines_map_some (output : Field) :
    ∀ (sents : List Segment) (texts : List (List Char)),
      sents.map (fun s => s.get output) = texts.map some →
      writeLines output sents = (texts.flatten, true) := by
  intro sents
  induction sents with
  | nil =>
    intro texts h
    cases texts with
    | nil => simp [writeLines]
    | cons t ts => simp at h
  | cons s ss ih =>
    intro texts h
    cases texts with
    | nil => simp at h
    | cons t ts =>
      simp only [List.map_cons, List.cons.injEq] at h
      have ihc := ih ts h.2
      simp [writeLines, h.1, ihc]

/-- Running the sink over a list of results that all succeed, followed by more
results, concatenates the outputs. -/
theorem sinkRun_append (output : Field) :
    ∀ (rs more : List TranslationResult), (sinkRun output rs).2 = true →
      sinkRun output (rs ++ more)
        = ((sinkRun output rs).1 ++ (sinkRun output more).1, (sinkRun output more).2) := by
  intro rs
  induction rs with
  | nil => intro more h; simp [sinkRun]
  | cons r rs ih =>
    intro more h
    by_cases hw : (write_stream output r).2
    · have hr : (sinkRun output rs).2 = true := by
        by_contra hc
        simp [sinkRun, hw] at h
        exact hc h
      have ihc := ih more hr
      simp [sinkRun, hw, ihc]
    · simp [sinkRun, hw] at h

/-- Every fragment `source` forwards for one line is at most 501 characters
long: the part before the split point is checked (`assert(len(init) <= 500)`)
and the appended separator adds at most one more. -/
theorem sourceLineAux_frag_length :
    ∀ (fuel : Nat) (line f : List Char), f ∈ (sourceLineAux fuel line).1 →
      f.length ≤ 501 := by
  intro fuel
  induction fuel with
  | zero =>
    intro line f hf
    by_cases hl : line.length > 500
    · simp [sourceLineAux, hl] at hf
    · simp [sourceLineAux, hl] at hf
      subst hf
      omega
  | succ n ih =>
    intro line f hf
    by_cases hl : line.length > 500
    · by_cases hi : (partitionSpace line).1.length ≤ 500
      · simp only [sourceLineAux, if_pos hl, if_pos hi, List.mem_cons] at hf
        rcases hf with hf | hf
        · subst hf
          have hsep := partitionSpace_sep_length line
          simp only [List.length_append]
          omega
        · exact ih _ _ hf
      · simp [sourceLineAux, hl, hi] at hf
    · simp [sourceLineAux, hl] at hf
      subst hf
      omega

/-- When the splitting loop for one line finishes without an assertion
failure, concatenating its fragments gives the line back. -/
theorem sourceLineAux_flatten :
    ∀ (fuel : Nat) (line : List Char), (sourceLineAux fuel line).2 = true →
      (sourceLineAux fuel line).1.flatten = line := by
  intro fuel
  induction fuel with
  | zero =>
    intro line h
    by_cases hl : line.length > 500
    · simp [sourceLineAux, hl] at h
    · simp [sourceLineAux, hl]
  | succ n ih =>
    intro line h
    by_cases hl : line.length > 500
    · by_cases hi : (partitionSpace line).1.length ≤ 500
      · simp only [sourceLineAux, if_pos hl, if_pos hi] at h ⊢
        rw [List.flatten_cons, ih _ h, List.append_assoc, ← List.append_assoc]
        exact partitionSpace_concat line
      · simp [sourceLineAux, hl, hi] at h
    · simp [sourceLineAux, hl]

/-- Modelled from the spec (for comparison only, not part of the code): a
fragment's unit size as §4.2 words it — the word count, found by splitting
the fragment's text on whitespace.  Counts maximal runs of non-space
characters. -/
def wordCountAux : Bool → List Char → Nat
  | _, [] => 0
  | inWord, c :: rest =>
    if c = ' ' then wordCountAux false rest
    else (if inWord then 0 else 1) + wordCountAux true rest

/-- Modelled from the spec: the number of words of a fragment. -/
def wordCount (l : List Char) : Nat :=
  wordCountAux false l

/-- A stub translation operation echoing its input, used by witnesses. -/
def stubTranslator (t : List Char) : TranslationResult :=
  ⟨some [⟨some t, some t⟩]⟩

set_option maxRecDepth 10000


/-! ### Claims -/

/-- Claim C1.  The claim states that results are delivered to the sink in
submission order regardless of out-of-order completion.  The code violates
this: `set_task` checks `done(first(queue))` — the head — but drains with
`queue.pop()`, which removes the tail.  Concrete failing schedule: two batches
are submitted, and the first batch's future completes only after the second
batch has been submitted; at the drain following the second submission both
futures are done, and the code delivers job 1 before job 0. -/
theorem C1_scheduler_pops_tail :
    setTaskRun (fun i _ => decide (i = 1)) [['a'], ['b']] = [(1, ['b']), (0, ['a'])] := by
  rfl

/-- Claim C2, counterexample.  A line whose first space sits exactly at index
500 defeats the claimed bound: the split-off fragment is the 500-character
prefix *plus* its trailing separator, 501 characters in all, and `source`
forwards it (the code's assertion checks only the part before the
separator). -/
theorem C2_counterexample :
    (List.replicate 500 'a' ++ [' ']) ∈ (source [List.replicate 500 'a' ++ [' ', 'b']]).1 ∧
      500 < (List.replicate 500 'a' ++ [' ']).length := by
  decide

/-- Claim C2 as amended: every fragment forwarded by `source` has length at
most 501 — at most 500 characters before the split point (enforced by
`assert(len(init) <= 500)`) plus at most one trailing separator character. -/
theorem C2_amended (input : List (List Char)) (f : List Char)
    (h : f ∈ (source input).1) : f.length ≤ 501 := by
  induction input with
  | nil => simp [source] at h
  | cons line rest ih =>
    by_cases hok : (sourceLine line).2
    · simp only [source, if_pos hok, List.mem_append] at h
      rcases h with h | h
      · exact sourceLineAux_frag_length line.length line f h
      · exact ih h
    · simp only [source, if_neg hok] at h
      exact sourceLineAux_frag_length line.length line f h

/-- Witness for `C2_amended` at a concrete input. -/
theorem C2_amended_witness :
    (['a'] : List Char) ∈ (source [['a']]).1 ∧ (['a'] : List Char).length ≤ 501 :=
  ⟨by decide, C2_amended [['a']] ['a'] (by decide)⟩

/-- Claim C3, counterexample.  On receiving the fragment `"hello world"`
(11 characters, 2 words) in an empty batch, `spool`'s running count becomes
11, the fragment's character count — not 2, its word count: the claimed
increment is wrong. -/
theorem C3_counterexample :
    (spoolStep 1200 ⟨0, []⟩ ['h','e','l','l','o',' ','w','o','r','l','d']).1.words = 11 ∧
      wordCount ['h','e','l','l','o',' ','w','o','r','l','d'] = 2 ∧
      (spoolStep 1200 ⟨0, []⟩ ['h','e','l','l','o',' ','w','o','r','l','d']).1.words ≠
        0 + wordCount ['h','e','l','l','o',' ','w','o','r','l','d'] := by
  decide

/-- Claim C3 as amended: on receiving a fragment, the batcher increments the
running unit count by the fragment's *character* count (its length) — the
per-character fold of `accumulator` over the fragment — flushing and
resetting when the incremented count reaches the threshold. -/
theorem C3_amended (maxlen : Nat) (st : SpoolState) (f : List Char) :
    ((spoolStep maxlen st f).1).words
        = (if maxlen ≤ st.words + f.length then 0 else st.words + f.length) ∧
      (spoolStep maxlen st f).2
        = (if maxlen ≤ st.words + f.length then [st.text ++ f] else []) := by
  rw [spoolStep_eq]
  split <;> simp

/-- Claim C4.  After upstream termination the scheduler has delivered exactly
the N submitted jobs — each exactly once, none left pending — for every
completion schedule: the delivered jobs are a permutation of the submitted
(index, text) pairs. -/
theorem C4_drain_completeness (doneAt : Nat → Nat → Bool) (tasks : List (List Char)) :
    (setTaskRun doneAt tasks).Perm tasks.enum ∧
      (setTaskRun doneAt tasks).length = tasks.length := by
  have h := setTaskGo_perm doneAt tasks 0 []
  simp only [List.nil_append] at h
  have hperm : (setTaskRun doneAt tasks).Perm tasks.enum := h
  exact ⟨hperm, by rw [hperm.length_eq, List.enum_length]⟩

/-- Claim C5, counterexample.  Two one-segment results: the sink writes a
newline after *each* result, so the stream is `"a\nb\n"`, not the claimed
segments-only output with a single terminator at final shutdown
(`"ab\n"`). -/
theorem C5_counterexample :
    sinkRun Field.trans [⟨some [⟨some ['a'], none⟩]⟩, ⟨some [⟨some ['b'], none⟩]⟩]
        = (['a', '\n', 'b', '\n'], true) ∧
      (['a', '\n', 'b', '\n'] : List Char) ≠ ['a'] ++ ['b'] ++ ['\n'] := by
  decide

/-- Claim C5 as amended: for each result the sink writes the selected field of
every segment, in order, with no separator between segments, followed by one
newline terminator per result (not a single terminator at shutdown). -/
theorem C5_amended (output : Field) (sents : List Segment) (texts : List (List Char))
    (h : sents.map (fun s => s.get output) = texts.map some) (hne : sents ≠ []) :
    write_stream output ⟨some sents⟩ = (texts.flatten ++ ['\n'], true) := by
  cases sents with
  | nil => exact absurd rfl hne
  | cons s0 ss =>
    cases texts with
    | nil => simp at h
    | cons t ts =>
      have hw := writeLines_map_some output (s0 :: ss) (t :: ts) h
      simp only [List.map_cons, List.cons.injEq] at h
      have hsome : (s0.get output).isSome := by rw [h.1]; rfl
      simp [write_stream, hsome, hw]

/-- Witness for `C5_amended` at a concrete result. -/
theorem C5_amended_witness :
    write_stream Field.trans ⟨some [⟨some ['a'], none⟩]⟩
      = (([['a']] : List (List Char)).flatten ++ ['\n'], true) :=
  C5_amended Field.trans [⟨some ['a'], none⟩] [['a']] (by decide) (by decide)

/-- Claim C6.  A single 1200-character line with no spaces: `partition(' ')`
returns the whole line as `init`, the assertion `len(init) <= 500` fails, and
`source` raises before forwarding anything — it never silently forwards a
fragment violating the bound for this input. -/
theorem C6_unsplittable_token : source [List.replicate 1200 'x'] = ([], false) := by
  decide

/-- Claim C7.  Every batch flushed during the run (i.e. before the final
shutdown flush) is flushed with its running count at or above the threshold,
from a pre-merge count strictly below the threshold, and the flush resets the
state to count zero and empty text. -/
theorem C7_flush_threshold (maxlen : Nat) (pre : List (List Char)) (f : List Char)
    (hm : 0 < maxlen)
    (hf : (spoolStep maxlen (spoolRun maxlen ⟨0, []⟩ pre).1 f).2 ≠ []) :
    (spoolRun maxlen ⟨0, []⟩ pre).1.words < maxlen ∧
      maxlen ≤ (spoolRun maxlen ⟨0, []⟩ pre).1.words + f.length ∧
      (spoolStep maxlen (spoolRun maxlen ⟨0, []⟩ pre).1 f).1 = ⟨0, []⟩ := by
  have hlt := spoolRun_words_lt maxlen hm pre ⟨0, []⟩ hm
  by_cases hc : maxlen ≤ (spoolRun maxlen ⟨0, []⟩ pre).1.words + f.length
  · refine ⟨hlt, hc, ?_⟩
    rw [spoolStep_eq]
    simp [hc]
  · exfalso
    apply hf
    rw [spoolStep_eq]
    simp [hc]

/-- Witness for `C7_flush_threshold` at a concrete flush. -/
theorem C7_witness :
    (spoolRun 1 ⟨0, []⟩ []).1.words < 1 ∧
      1 ≤ (spoolRun 1 ⟨0, []⟩ []).1.words + (['a'] : List Char).length ∧
      (spoolStep 1 (spoolRun 1 ⟨0, []⟩ []).1 ['a']).1 = ⟨0, []⟩ :=
  C7_flush_threshold 1 [] ['a'] (by decide) (by decide)

/-- Claim C8.  Whenever `source` completes without an assertion failure — in
particular whenever no line needs splitting beyond whitespace boundaries —
concatenating all forwarded fragments reconstructs the input exactly. -/
theorem C8_reconstruction (input : List (List Char)) (h : (source input).2 = true) :
    (source input).1.flatten = input.flatten := by
  induction input with
  | nil => simp [source]
  | cons line rest ih =>
    by_cases hok : (sourceLine line).2
    · have h2 : (source rest).2 = true := by
        simpa [source, hok] using h
      have hline : (sourceLine line).1.flatten = line :=
        sourceLineAux_flatten line.length line hok
      simp [source, hok, List.flatten_append, hline, ih h2]
    · simp [source, hok] at h

/-- Witness for `C8_reconstruction` at a concrete input. -/
theorem C8_witness : (source [['h', 'i']]).1.flatten = [['h', 'i']].flatten :=
  C8_reconstruction [['h', 'i']] (by decide)

/-- Claim C9.  A result whose first segment lacks the selected field makes the
sink fail before writing any output for that result (the precondition is
checked once, on the first segment, before the write loop), and output already
written for earlier results is unaffected. -/
theorem C9_missing_field_fails_fast (output : Field) (s0 : Segment)
    (rest : List Segment) (goods : List TranslationResult)
    (h2 : s0.get output = none) (h3 : (sinkRun output goods).2 = true) :
    write_stream output ⟨some (s0 :: rest)⟩ = ([], false) ∧
      sinkRun output (goods ++ [⟨some (s0 :: rest)⟩])
        = ((sinkRun output goods).1, false) := by
  have hw : write_stream output ⟨some (s0 :: rest)⟩ = ([], false) := by
    simp [write_stream, h2]
  refine ⟨hw, ?_⟩
  rw [sinkRun_append output goods _ h3]
  simp [sinkRun, hw]

/-- Witness for `C9_missing_field_fails_fast` at a concrete result. -/
theorem C9_witness :
    write_stream Field.trans ⟨some [⟨none, none⟩]⟩ = ([], false) ∧
      sinkRun Field.trans ([] ++ [⟨some [⟨none, none⟩]⟩])
        = ((sinkRun Field.trans []).1, false) :=
  C9_missing_field_fails_fast Field.trans ⟨none, none⟩ [] [] (by decide) (by decide)

/-- Claim C10.  Closing the pipeline always submits exactly one final job with
the remaining partial batch text; with zero fragments ever received the
batcher still sends one empty batch, the scheduler submits it, the translator
is invoked once on the empty string, and the sink processes exactly that one
result (for any positive threshold — with threshold 0 the code's inner loop
never reaches its yield). -/
theorem C10_final_flush (maxlen : Nat) (doneAt : Nat → Nat → Bool)
    (translator : List Char → TranslationResult) (output : Field)
    (_hm : 0 < maxlen) :
    spool maxlen [] = [[]] ∧
      setTaskRun doneAt (spool maxlen []) = [(0, [])] ∧
      setTaskResults doneAt translator (spool maxlen []) = [translator []] ∧
      sinkRun output [translator []] = write_stream output (translator []) := by
  have h1 : spool maxlen [] = [[]] := rfl
  have h2 : setTaskRun doneAt (spool maxlen []) = [(0, [])] := by
    rw [h1]
    cases hd : doneAt 0 0 <;>
      simp [setTaskRun, setTaskGo, drainLoop, drainLoopAux, hd]
  have h3 : setTaskResults doneAt translator (spool maxlen []) = [translator []] := by
    simp [setTaskResults, h2]
  have h4 : sinkRun output [translator []] = write_stream output (translator []) := by
    by_cases hw : (write_stream output (translator [])).2
    · simp only [sinkRun, if_pos hw, List.append_nil]
      conv_rhs => rw [← Prod.mk.eta (p := write_stream output (translator []))]
      rw [hw]
    · simp only [sinkRun, if_neg hw]
      conv_rhs => rw [← Prod.mk.eta (p := write_stream output (translator []))]
      rw [Bool.not_eq_true] at hw
      rw [hw]
  exact ⟨h1, h2, h3, h4⟩

/-- Witness for `C10_final_flush` with a schedule, stub translator and output
field made concrete. -/
theorem C10_witness :
    spool 1200 [] = [[]] ∧
      setTaskRun (fun _ _ => true) (spool 1200 []) = [(0, [])] ∧
      setTaskResults (fun _ _ => true) stubTranslator (spool 1200 []) = [stubTranslator []] ∧
      sinkRun Field.trans [stubTranslator []] = write_stream Field.trans (stubTranslator []) :=
  C10_final_flush 1200 (fun _ _ => true) stubTranslator Field.trans (by decide)

end Translate
